import Mathlib

/-!
# Bounding-box-tree and binding-layer verification for the dolfinx repository

The repository's Python layer wraps a native core (`dolfin.cpp.*`).  The
geometric search structure (`BoundingBoxTree`) is implemented in that native
core; only its Python-side callers and its unit tests
(`src/python/test/unit/geometry/test_bounding_box_tree.py`) are in the
repository, so the tree itself is modelled here from the specification
(spec.md §3–§4.5).  The `Function` / `Constant` wrappers
(`src/python/dolfin/function/function.py`, `src/python/dolfin/fem/constant.py`)
are embedded from their Python sources.

Coordinates are exact: the development is generic over a linear ordered
commutative ring `α` (the spec's algorithms use only ring operations and
comparisons once centroids are compared through their doubled values),
instantiated at `ℚ` or `ℤ` for concrete scenarios.
-/

namespace Dolfin

variable {α : Type} [LinearOrderedCommRing α]

/-- Modelled from the spec: §3 "Box: a pair of coordinate vectors (min, max),
one per ambient dimension (1, 2, or 3)" — stored as the list of per-axis
(min, max) intervals.  The implementing code
(`dolfin.cpp.geometry.BoundingBoxTree`) is in the native core, not in the
repository's Python sources. -/
abbrev Box (α : Type) : Type := List (α × α)

/-- Modelled from the spec: §4.1 `overlaps(a, b) -> bool` — "per-axis interval
overlap, all axes must overlap".  Boxes of mismatched ambient dimension (a
caller contract violation, §7) never overlap. -/
def overlaps : Box α → Box α → Bool
  | [], [] => true
  | (l₁, h₁) :: a, (l₂, h₂) :: b => (l₁ ≤ h₂ && l₂ ≤ h₁) && overlaps a b
  | _, _ => false

/-- Modelled from the spec: §4.1 `contains_point(box, p) -> bool` — "per-axis
p[i] in [min[i], max[i]], with a caller-supplied tolerance to treat
near-boundary points as contained". -/
def contains_point (tol : α) : Box α → List α → Bool
  | [], [] => true
  | (l, h) :: b, x :: p => (l - tol ≤ x && x ≤ h + tol) && contains_point tol b p
  | _, _ => false

/-- Per-axis box containment (`box_le inner outer`), used to state the §3
invariant "for every internal node, its Box contains ... both children's
Boxes". -/
def box_le : Box α → Box α → Bool
  | [], [] => true
  | (l₁, h₁) :: a, (l₂, h₂) :: b => (l₂ ≤ l₁ && h₁ ≤ h₂) && box_le a b
  | _, _ => false

/-- One axis of §4.1 `lower_bound_distance_sq`: squared distance from
coordinate `x` to the interval `[l, h]`. -/
def axis_dist_sq (l h x : α) : α :=
  if x < l then (l - x) ^ 2 else if h < x then (x - h) ^ 2 else 0

/-- Modelled from the spec: §4.1 `lower_bound_distance_sq(box, p)` — "squared
Euclidean distance from p to the box, 0 if p is inside". -/
def lower_bound_distance_sq : Box α → List α → α
  | (l, h) :: b, x :: p => axis_dist_sq l h x + lower_bound_distance_sq b p
  | _, _ => 0

/-- Modelled from the spec: §4.4 box volume (product of the side lengths),
used to choose which node
to expand during tree-to-tree traversal. -/
def volume : Box α → α
  | [] => 1
  | (l, h) :: b => (h - l) * volume b

/-- Modelled from the spec: §3 the union box of two boxes — per axis, min of
the mins and max of the
maxs. -/
def box_union : Box α → Box α → Box α
  | (l₁, h₁) :: a, (l₂, h₂) :: b => (min l₁ l₂, max h₁ h₂) :: box_union a b
  | _, _ => []

/-- Modelled from the spec: §3 "Node: either a leaf (references exactly one
Entity and its Box) or an internal node (owns exactly two child Nodes and
stores the Box that is the union of its children's Boxes)". -/
inductive Node (α : Type) : Type where
  | leaf (entity : ℕ) (box : Box α)
  | branch (box : Box α) (left right : Node α)
deriving DecidableEq

/-- The box stored at a node. -/
def Node.box : Node α → Box α
  | .leaf _ b => b
  | .branch b _ _ => b

/-- Number of leaves below a node (the traversal measures). -/
def Node.size : Node α → ℕ
  | .leaf _ _ => 1
  | .branch _ l r => l.size + r.size + 1

/-- The (entity, box) leaf pairs below a node, left to right. -/
def Node.leaves : Node α → List (ℕ × Box α)
  | .leaf e b => [(e, b)]
  | .branch _ l r => l.leaves ++ r.leaves

/-- The entity ids below a node. -/
def Node.entities (n : Node α) : List ℕ := n.leaves.map Prod.fst

/-- Modelled from the spec: the §3 invariant — every internal node's box
contains both children's boxes
(checked recursively). -/
def Node.wf : Node α → Bool
  | .leaf _ _ => true
  | .branch b l r => box_le l.box b && box_le r.box b && l.wf && r.wf

/-- Modelled from the spec: §3 "Tree: owns the root Node"; §4.2 edge case
m == 0 "the tree is empty" —
modelled as `none`. -/
abbrev Tree (α : Type) : Type := Option (Node α)

/-- A tree is well formed when its root node (if any) is. -/
def Tree.wf : Tree α → Bool
  | none => true
  | some n => n.wf

/-- Modelled from the spec: §4.3 all-collisions point query on a node —
"depth-first from root; prune any subtree whose Box does not contain the point
(tolerant containment); at a leaf whose Box contains the point, record its
Entity". -/
def Node.collisions_point (tol : α) (p : List α) : Node α → List ℕ
  | .leaf e b => if contains_point tol b p then [e] else []
  | .branch b l r =>
      if contains_point tol b p then
        l.collisions_point tol p ++ r.collisions_point tol p
      else []

/-- Modelled from the spec: §4.3 first-collision mode — the same traversal,
returning "immediately upon finding any containing leaf". -/
def Node.first_collision (tol : α) (p : List α) : Node α → Option ℕ
  | .leaf e b => if contains_point tol b p then some e else none
  | .branch b l r =>
      if contains_point tol b p then
        match l.first_collision tol p with
        | some e => some e
        | none => r.first_collision tol p
      else none

/-- Modelled from the spec: §6 `compute_collisions(tree, point)` — named
after the test suite's
`BoundingBoxTree.compute_collisions_point`; the empty tree answers no
collisions (§7). -/
def compute_collisions_point (tol : α) (t : Tree α) (p : List α) : List ℕ :=
  match t with
  | none => []
  | some n => n.collisions_point tol p

/-- Modelled from the spec: §6 `compute_first_collision(tree, point)` — none
on the empty tree (§7). -/
def compute_first_collision (tol : α) (t : Tree α) (p : List α) : Option ℕ :=
  match t with
  | none => none
  | some n => n.first_collision tol p

/-- Modelled from the spec: §4.4 tree-to-tree traversal — "if the two current
nodes' Boxes do not overlap, prune; if both are leaves and boxes overlap, emit
the pair; otherwise expand the node with the larger box volume into its two
children" (a leaf partner forces expanding the internal node; on equal volumes
the first node is expanded — the spec fixes no tie rule). -/
def Node.collide (a b : Node α) : List (ℕ × ℕ) :=
  if overlaps a.box b.box then
    match a, b with
    | .leaf ea _, .leaf eb _ => [(ea, eb)]
    | .leaf ea ba, .branch _ bl br =>
        Node.collide (.leaf ea ba) bl ++ Node.collide (.leaf ea ba) br
    | .branch _ al ar, .leaf eb bb =>
        Node.collide al (.leaf eb bb) ++ Node.collide ar (.leaf eb bb)
    | .branch bxa al ar, .branch bxb bl br =>
        if volume bxa < volume bxb then
          Node.collide (.branch bxa al ar) bl ++ Node.collide (.branch bxa al ar) br
        else
          Node.collide al (.branch bxb bl br) ++ Node.collide ar (.branch bxb bl br)
  else []
termination_by a.size + b.size
decreasing_by all_goals simp [Node.size]; omega

/-- Modelled from the spec: §6 `compute_collisions(treeA, treeB)` — the test
suite's
`compute_collisions_bb`; "either tree empty yields no pairs" (§4.4). -/
def compute_collisions_bb (ta tb : Tree α) : List (ℕ × ℕ) :=
  match ta, tb with
  | some a, some b => a.collide b
  | _, _ => []

/-- Modelled from the spec: §4.2 centroids — twice the centroid coordinate of
a box along axis `k` (comparing doubled
centroids orders exactly as comparing centroids, avoiding division; §4.2). -/
def centroid2 (b : Box α) (k : ℕ) : α :=
  match b[k]? with
  | some (l, h) => l + h
  | none => 0

/-- Modelled from the spec: §4.2 the spread of the box centroids along axis
`k` (max minus min). -/
def spread (items : List (ℕ × Box α)) (k : ℕ) : α :=
  match items.map fun it => centroid2 it.2 k with
  | [] => 0
  | c :: cs => cs.foldl max c - cs.foldl min c

/-- Modelled from the spec: §4.2 "choose the split axis as the one with the
greatest spread among the
centroids" (lowest axis index on ties). -/
def best_axis (dim : ℕ) (items : List (ℕ × Box α)) : ℕ :=
  (List.range dim).foldl
    (fun best k => if spread items best < spread items k then k else best) 0

/-- Modelled from the spec: §4.2 ordering for the median split — by centroid
coordinate along the split
axis, "stable, deterministic ordering of ties by Entity id ascending". -/
def split_le (k : ℕ) (x y : ℕ × Box α) : Prop :=
  centroid2 x.2 k < centroid2 y.2 k ∨
    (centroid2 x.2 k = centroid2 y.2 k ∧ x.1 ≤ y.1)

instance (k : ℕ) : DecidableRel (@split_le α _ k) := fun x y => by
  unfold split_le; infer_instance

/-- Modelled from the spec: §4.2 the input sorted along the chosen split
axis, "stable, deterministic
ordering of ties by Entity id ascending". -/
def sorted_items (dim : ℕ) (items : List (ℕ × Box α)) : List (ℕ × Box α) :=
  List.insertionSort (split_le (best_axis dim items)) items

/-- Modelled from the spec: §4.2 the lower half of the median split, ⌈m/2⌉
entities. -/
def split_lo (dim : ℕ) (items : List (ℕ × Box α)) : List (ℕ × Box α) :=
  (sorted_items dim items).take ((items.length + 1) / 2)

/-- Modelled from the spec: §4.2 the upper half of the median split, ⌊m/2⌋
entities. -/
def split_hi (dim : ℕ) (items : List (ℕ × Box α)) : List (ℕ × Box α) :=
  (sorted_items dim items).drop ((items.length + 1) / 2)

theorem length_sorted_items (dim : ℕ) (items : List (ℕ × Box α)) :
    (sorted_items dim items).length = items.length :=
  List.length_insertionSort _ items

theorem length_split_lo (dim : ℕ) (items : List (ℕ × Box α)) :
    (split_lo dim items).length = min ((items.length + 1) / 2) items.length := by
  simp [split_lo, List.length_take, length_sorted_items]

theorem length_split_hi (dim : ℕ) (items : List (ℕ × Box α)) :
    (split_hi dim items).length = items.length - (items.length + 1) / 2 := by
  simp [split_hi, List.length_drop, length_sorted_items]

theorem split_lo_ne_nil {dim : ℕ} {items : List (ℕ × Box α)}
    (h : ¬items.length ≤ 1) : split_lo dim items ≠ [] := by
  refine List.ne_nil_of_length_pos ?_
  rw [length_split_lo]
  omega

theorem split_hi_ne_nil {dim : ℕ} {items : List (ℕ × Box α)}
    (h : ¬items.length ≤ 1) : split_hi dim items ≠ [] := by
  refine List.ne_nil_of_length_pos ?_
  rw [length_split_hi]
  omega

/-- The two halves together are a permutation of the input. -/
theorem perm_split_append (dim : ℕ) (items : List (ℕ × Box α)) :
    List.Perm (split_lo dim items ++ split_hi dim items) items := by
  rw [split_lo, split_hi, List.take_append_drop]
  exact List.perm_insertionSort _ items

/-- Modelled from the spec: §4.2 hierarchy builder on a non-empty entity set —
"if m == 1: produce a leaf; else ... partition S into two halves of size
⌈m/2⌉ and ⌊m/2⌋ by the median centroid coordinate along that axis ...; recurse
on each half; the node's Box is the union of the two children's Boxes". -/
def build_node (dim : ℕ) (items : List (ℕ × Box α)) (h : items ≠ []) : Node α :=
  if hlen : items.length ≤ 1 then
    .leaf (items.head h).1 (items.head h).2
  else
    let ln := build_node dim (split_lo dim items) (split_lo_ne_nil hlen)
    let rn := build_node dim (split_hi dim items) (split_hi_ne_nil hlen)
    .branch (box_union ln.box rn.box) ln rn
termination_by items.length
decreasing_by
  · rw [length_split_lo]; omega
  · rw [length_split_hi]; omega

/-- Modelled from the spec: §6 `build(mesh, dimension)` — build the tree from
the snapshot
of per-entity (id, box) pairs (`dim` is the ambient dimension used for split
axis selection); "building a tree over zero entities is not an error; it
yields a well-defined empty tree" (§7). -/
def build (dim : ℕ) (items : List (ℕ × Box α)) : Tree α :=
  if h : items = [] then none else some (build_node dim items h)

/-- The (entity, box) leaf pairs of a tree. -/
def Tree.leaves : Tree α → List (ℕ × Box α)
  | none => []
  | some n => n.leaves

/-- Modelled from the spec: the §8 concrete 1D scenario data —
`UnitIntervalMesh(16)` (native-core mesh generator), 16 equal-width
cells of the unit interval, cell `i` spanning `[i/16, (i+1)/16]`, in ambient
dimension 1.  The mesh generator is in the native core; the cell boxes follow
the spec's words "16 equal-width unit-interval cells ... cells numbered
left-to-right from 0, width 1/16". -/
def c1_cells : List (ℕ × Box ℚ) :=
  (List.range 16).map fun i => (i, [((i : ℚ) / 16, ((i : ℚ) + 1) / 16)])

/-- Modelled from the spec: the C1 query point x = 0.3 (the test passes
`[0.3, 0, 0]`; the 1D mesh has
geometric dimension 1, so the model uses the one meaningful coordinate). -/
def c1_point : List ℚ := [3 / 10]

/-- Exact rational value of a coordinate given in hundredths (the C3 scenario
data — 0.52, 0.51, 0.3, cube side 0.5 — are all exact hundredths). -/
def qscale (c : ℤ) : ℚ := (c : ℚ) / 100

/-- A box with hundredth coordinates mapped to its exact rational box. -/
def qscale_box (b : Box ℤ) : Box ℚ := b.map fun q => (qscale q.1, qscale q.2)

/-- Modelled from the spec: sub-cube box of `UnitCubeMesh(2, 2, 2)` (missing
native-core mesh generator) in hundredths — sub-cube `k < 8`
(x index `k % 2` fastest, then y, then z) spans 50 hundredths per axis, offset
by the mesh translation `(sx, sy, sz)`. -/
def c3_zbox (sx sy sz : ℤ) (k : ℕ) : Box ℤ :=
  [(sx + 50 * (k % 2 : ℕ), sx + 50 * (k % 2 : ℕ) + 50),
   (sy + 50 * (k / 2 % 2 : ℕ), sy + 50 * (k / 2 % 2 : ℕ) + 50),
   (sz + 50 * (k / 4 : ℕ), sz + 50 * (k / 4 : ℕ) + 50)]

/-- Modelled from the spec: the §8 concrete 3D scenario data — cell boxes of
`UnitCubeMesh(2, 2, 2)`, whose generator is in the missing native core,
following the spec and the reference data of
`test_compute_collisions_tree_3d`: the mesh generator (native core) cuts the
unit cube into 2×2×2 sub-cubes, each into 6 tetrahedral cells (cells
`6k .. 6k+5` in sub-cube `k`) all sharing the sub-cube's main diagonal, so
every cell's AABB is exactly its sub-cube. -/
def c3_cellsA : List (ℕ × Box ℚ) :=
  (List.range 48).map fun c => (c, qscale_box (c3_zbox 0 0 0 (c / 6)))

/-- Modelled from the spec: the same mesh translated by (0.52, 0.51, 0.3)
(mesh B of the
scenario). -/
def c3_cellsB : List (ℕ × Box ℚ) :=
  (List.range 48).map fun c => (c, qscale_box (c3_zbox 52 51 30 (c / 6)))

/-- C3 reference result, side A (`test_compute_collisions_tree_3d`). -/
def c3_refA : List ℕ := [18, 19, 20, 21, 22, 23, 42, 43, 44, 45, 46, 47]

/-- C3 reference result, side B (`test_compute_collisions_tree_3d`). -/
def c3_refB : List ℕ := [0, 1, 2, 3, 4, 5, 24, 25, 26, 27, 28, 29]

/-- Modelled from the spec: §3, a box with min[i] ≤ max[i] on every axis
("such that min[i] ≤ max[i]
for all i"). -/
def proper_box (b : Box α) : Bool := b.all fun q => q.1 ≤ q.2

/-- Modelled from the spec: every box in the tree is proper (§3 data-model
invariant). -/
def Node.proper : Node α → Bool
  | .leaf _ b => proper_box b
  | .branch b l r => proper_box b && l.proper && r.proper

/-- Modelled from the spec: §4.5 running-best update — "update the best if
smaller", with the spec's determinism tie-break "for equal exact distances:
lowest Entity id wins". -/
def best_update (best : Option (ℕ × α)) (e : ℕ) (d : α) : Option (ℕ × α) :=
  match best with
  | none => some (e, d)
  | some (e₀, d₀) =>
      if d < d₀ ∨ (d = d₀ ∧ e < e₀) then some (e, d) else some (e₀, d₀)

/-- Modelled from the spec: §4.5 priority queue — insertion keeping ascending
order of lower-bound
distance. -/
def pq_insert (x : α × Node α) : List (α × Node α) → List (α × Node α)
  | [] => [x]
  | y :: t => if x.1 ≤ y.1 then x :: y :: t else y :: pq_insert x t

/-- Modelled from the spec: §4.5 termination — "everything remaining is
provably farther", the popped
lower bound already exceeds the best exact distance. -/
def prune_check (best : Option (ℕ × α)) (lb : α) : Bool :=
  match best with
  | some (_, d₀) => d₀ < lb
  | none => false

/-- Total number of tree nodes held in the queue (the search measure). -/
def queue_size : List (α × Node α) → ℕ
  | [] => 0
  | x :: t => x.2.size + queue_size t

theorem queue_size_pq_insert (x : α × Node α) (q : List (α × Node α)) :
    queue_size (pq_insert x q) = x.2.size + queue_size q := by
  induction q with
  | nil => rfl
  | cons y t ih =>
      rw [pq_insert]
      by_cases hle : x.1 ≤ y.1
      · simp [hle, queue_size]
      · simp only [hle, if_false, queue_size, ih]
        omega

/-- Modelled from the spec: §4.5 best-first (priority-queue) search "ordered
by ascending `lower_bound_distance_sq` of each node's Box to the point",
maintaining a running best; distances are measured squared throughout (§4.1
supplies the squared lower bound; the exact squared point-to-entity distance
`dist_sq` is the external geometric oracle of §6). -/
def search (dist_sq : ℕ → α) (p : List α) :
    List (α × Node α) → Option (ℕ × α) → Option (ℕ × α)
  | [], best => best
  | (lb, n) :: rest, best =>
      if prune_check best lb then best
      else
        match n with
        | .leaf e _ => search dist_sq p rest (best_update best e (dist_sq e))
        | .branch _ l r =>
            search dist_sq p
              (pq_insert (lower_bound_distance_sq l.box p, l)
                (pq_insert (lower_bound_distance_sq r.box p, r) rest)) best
termination_by q _ => queue_size q
decreasing_by
  · simp [queue_size, Node.size]
  · simp only [queue_size_pq_insert, queue_size, Node.size]
    omega

/-- Modelled from the spec: §6 `compute_closest_entity(tree, point)` — none
only on the empty tree
(§4.5 "fails ... only if the tree is empty"). -/
def compute_closest_entity (dist_sq : ℕ → α) (t : Tree α) (p : List α) :
    Option (ℕ × α) :=
  match t with
  | none => none
  | some n => search dist_sq p [(lower_bound_distance_sq n.box p, n)] none

/-- Reference fold for the nearest-entity result: the running best over a
plain entity list (the §4.5 loop without the queue). -/
def fold_best (dist_sq : ℕ → α) (best : Option (ℕ × α)) (es : List ℕ) :
    Option (ℕ × α) :=
  es.foldl (fun b e => best_update b e (dist_sq e)) best

/-- All entities below the nodes of a queue. -/
def queue_entities : List (α × Node α) → List ℕ
  | [] => []
  | (_, n) :: t => n.entities ++ queue_entities t

/-- The queue is sorted by ascending lower-bound distance. -/
def pq_sorted (q : List (α × Node α)) : Prop :=
  List.Pairwise (fun x y => x.1 ≤ y.1) q

/-- Invariant of one queue entry: a well-formed proper node carrying its own
lower-bound distance, with the §4.1 admissibility guarantee ("never an
overestimate") for each leaf below it. -/
def item_inv (dist_sq : ℕ → α) (p : List α) (x : α × Node α) : Prop :=
  x.2.wf = true ∧ x.2.proper = true ∧
    x.1 = lower_bound_distance_sq x.2.box p ∧
    ∀ ebx ∈ x.2.leaves, lower_bound_distance_sq ebx.2 p ≤ dist_sq ebx.1

/-! ## The Python binding layer (src/python/dolfin) -/

/-- From `src/python/dolfin/function/function.py`: the state of a `Function`
wrapper that `__call__` consults — the mesh's geometric dimension and the
native evaluation routine (`self._cpp_object.eval`, an opaque oracle). -/
structure PyFunction (α : Type) : Type where
  gdim : ℕ
  evalOracle : List α → List α

/-- From `function.py` `Function.__call__` (lines 64–70), for a single flat
coordinate array `x`: numpy reshapes it to one row of `x.length` columns, and
"if _x.shape[1] != self.geometric_dimension(): raise ValueError('Wrong
geometric dimension for coordinate(s).')"; only past the check is the native
evaluation called. -/
def PyFunction.call (f : PyFunction α) (x : List α) : Except String (List α) :=
  if x.length ≠ f.gdim then
    Except.error "Wrong geometric dimension for coordinate(s)."
  else Except.ok (f.evalOracle x)

/-- From `src/python/dolfin/fem/constant.py`: the observable state of a
`Constant` — the flattened native backing array (`self._value.array()`; the
getter reads its element [0, 0], the setter writes every slot) and the
instance dictionary holding every other attribute (most recent binding
first). -/
structure PyConstant (α : Type) : Type where
  arr : List α
  attrs : List (String × α)

/-- From `constant.py` `Constant.__setattr__` (lines 21–26): assigning
`value` broadcasts the value into the backing array (`arr[:] = value`); any
other name goes through `super().__setattr__` into the instance
dictionary. -/
def PyConstant.setattr (c : PyConstant α) (name : String) (v : α) :
    PyConstant α :=
  if name = "value" then { c with arr := c.arr.map fun _ => v }
  else { c with attrs := (name, v) :: c.attrs }

/-- From `constant.py` `Constant.__getattr__` (lines 28–33), composed with
Python attribute lookup: a name found in the instance dictionary is returned
directly (`__getattr__` only runs when normal lookup fails); a failed lookup
of `value` reads the backing array element (`arr[0, 0]`), and any other
failed name raises `AttributeError("No such attribute")`. -/
def PyConstant.getattr (c : PyConstant α) (name : String) : Except String α :=
  match c.attrs.lookup name with
  | some v => Except.ok v
  | none =>
      if name = "value" then
        match c.arr with
        | a :: _ => Except.ok a
        | [] => Except.error "IndexError"
      else Except.error "No such attribute"

/-- Handle-level model of Python object identity for `Function.copy`:
degree-of-freedom vectors live in a store indexed by handles; two `Function`s
alias a vector exactly when they hold the same handle. -/
structure PyFunctionObj : Type where
  space : ℕ
  vec : ℕ

/-- The vector store (the PETSc vectors owned by the native layer). -/
structure VecStore (α : Type) : Type where
  vecs : List (List α)

/-- Read a vector's data through its handle. -/
def VecStore.read (st : VecStore α) (i : ℕ) : List α := st.vecs.getD i []

/-- Overwrite a vector's data in place through its handle. -/
def VecStore.write (st : VecStore α) (i : ℕ) (xs : List α) : VecStore α :=
  ⟨st.vecs.set i xs⟩

/-- From `function.py` `Function.copy` (lines 113–119): "Return a copy of
the Function. The FunctionSpace is shared and the degree-of-freedom vector is
copied" — `Function(self.function_space(), self._cpp_object.vector().copy())`
keeps the same space handle and allocates a fresh vector holding a copy of
the data. -/
def PyFunctionObj.copy (st : VecStore α) (f : PyFunctionObj) :
    VecStore α × PyFunctionObj :=
  (⟨st.vecs ++ [st.read f.vec]⟩, ⟨f.space, st.vecs.length⟩)

/-- The query surface of §6, one constructor per read operation. -/
inductive Query (α : Type) : Type where
  | point_all (tol : α) (p : List α)
  | point_first (tol : α) (p : List α)
  | tree_tree (other : Tree α)
  | closest (dist_sq : ℕ → α) (p : List α)

/-- A query answer. -/
inductive Answer (α : Type) : Type where
  | entities (es : List ℕ)
  | entity (e : Option ℕ)
  | pairs (ps : List (ℕ × ℕ))
  | nearest (r : Option (ℕ × α))

/-- Modelled from the spec: §3/§5 — running a query hands the tree handle
back together with the answer; the tree is "immutable after construction
(queries never mutate the tree)" and "no shared mutable state exists inside a
Tree after construction", so the returned handle is the unchanged input. -/
def run_query (t : Tree α) : Query α → Tree α × Answer α
  | .point_all tol p => (t, .entities (compute_collisions_point tol t p))
  | .point_first tol p => (t, .entity (compute_first_collision tol t p))
  | .tree_tree other => (t, .pairs (compute_collisions_bb t other))
  | .closest dist_sq p => (t, .nearest (compute_closest_entity dist_sq t p))

/-! ## Lemmas about the AABB primitives -/

theorem overlaps_symm (a b : Box α) : overlaps a b = overlaps b a := by
  induction a generalizing b with
  | nil => cases b with
    | nil => rfl
    | cons q b => cases q; simp [overlaps]
  | cons q a ih =>
      cases q with
      | mk l₁ h₁ =>
        cases b with
        | nil => simp [overlaps]
        | cons q₂ b =>
            cases q₂ with
            | mk l₂ h₂ =>
                simp only [overlaps, ih]
                rw [Bool.and_comm (decide (l₁ ≤ h₂)) (decide (l₂ ≤ h₁))]

theorem box_le_trans {a b c : Box α} (hab : box_le a b = true)
    (hbc : box_le b c = true) : box_le a c = true := by
  induction a generalizing b c with
  | nil =>
      cases b with
      | nil => cases c with
        | nil => rfl
        | cons q c => simp [box_le] at hbc
      | cons q b => simp [box_le] at hab
  | cons q a ih =>
      cases q with
      | mk l₁ h₁ =>
        cases b with
        | nil => simp [box_le] at hab
        | cons q₂ b =>
            cases q₂ with
            | mk l₂ h₂ =>
              cases c with
              | nil => simp [box_le] at hbc
              | cons q₃ c =>
                  cases q₃ with
                  | mk l₃ h₃ =>
                    simp [box_le] at hab hbc ⊢
                    exact ⟨⟨le_trans hbc.1.1 hab.1.1, le_trans hab.1.2 hbc.1.2⟩,
                      ih hab.2 hbc.2⟩

/-- Pruning is sound on the left: a box contained in `A` can only overlap what
`A` overlaps. -/
theorem overlaps_of_box_le_left {a A c : Box α} (hle : box_le a A = true)
    (hov : overlaps a c = true) : overlaps A c = true := by
  induction a generalizing A c with
  | nil =>
      cases A with
      | nil => exact hov
      | cons q A => simp [box_le] at hle
  | cons q a ih =>
      cases q with
      | mk l₁ h₁ =>
        cases A with
        | nil => simp [box_le] at hle
        | cons q₂ A =>
            cases q₂ with
            | mk l₂ h₂ =>
              cases c with
              | nil => simp [overlaps] at hov
              | cons q₃ c =>
                  cases q₃ with
                  | mk l₃ h₃ =>
                    simp [box_le] at hle
                    simp [overlaps] at hov ⊢
                    exact ⟨⟨le_trans hle.1.1 hov.1.1, le_trans hov.1.2 hle.1.2⟩,
                      ih hle.2 hov.2⟩

theorem overlaps_of_box_le_right {b B c : Box α} (hle : box_le b B = true)
    (hov : overlaps c b = true) : overlaps c B = true := by
  rw [overlaps_symm] at hov ⊢
  exact overlaps_of_box_le_left hle hov

/-- Tolerant containment is monotone in the box. -/
theorem contains_point_of_box_le {tol : α} {a A : Box α} {p : List α}
    (hle : box_le a A = true) (hc : contains_point tol a p = true) :
    contains_point tol A p = true := by
  induction a generalizing A p with
  | nil =>
      cases A with
      | nil => exact hc
      | cons q A => simp [box_le] at hle
  | cons q a ih =>
      cases q with
      | mk l₁ h₁ =>
        cases A with
        | nil => simp [box_le] at hle
        | cons q₂ A =>
            cases q₂ with
            | mk l₂ h₂ =>
              cases p with
              | nil => simp [contains_point] at hc
              | cons x p =>
                  simp [box_le] at hle
                  simp [contains_point] at hc ⊢
                  refine ⟨⟨le_trans (by linarith [hle.1.1]) hc.1.1,
                    le_trans hc.1.2 (by linarith [hle.1.2])⟩, ih hle.2 hc.2⟩

theorem length_box_union (a b : Box α) (h : a.length = b.length) :
    (box_union a b).length = a.length := by
  induction a generalizing b with
  | nil => cases b with
    | nil => rfl
    | cons q b => simp at h
  | cons q a ih =>
      cases q
      cases b with
      | nil => simp at h
      | cons q₂ b =>
          cases q₂
          simp_all [box_union]

theorem box_le_box_union_left (a b : Box α) (h : a.length = b.length) :
    box_le a (box_union a b) = true := by
  induction a generalizing b with
  | nil => cases b with
    | nil => rfl
    | cons q b => simp at h
  | cons q a ih =>
      cases q
      cases b with
      | nil => simp at h
      | cons q₂ b =>
          cases q₂
          simp_all [box_union, box_le, min_le_left, le_max_left]

theorem box_le_box_union_right (a b : Box α) (h : a.length = b.length) :
    box_le b (box_union a b) = true := by
  induction a generalizing b with
  | nil => cases b with
    | nil => rfl
    | cons q b => simp at h
  | cons q a ih =>
      cases q
      cases b with
      | nil => simp at h
      | cons q₂ b =>
          cases q₂
          simp_all [box_union, box_le, min_le_right, le_max_right]

theorem box_le_refl (a : Box α) : box_le a a = true := by
  induction a with
  | nil => rfl
  | cons q a ih => cases q; simp [box_le, ih]

theorem Node.wf_branch {b : Box α} {l r : Node α} :
    (Node.branch b l r).wf = true ↔
      box_le l.box b = true ∧ box_le r.box b = true ∧
        l.wf = true ∧ r.wf = true := by
  simp [Node.wf, and_assoc]

/-- In a well-formed tree every leaf box is contained in the root box. -/
theorem box_le_of_mem_leaves {n : Node α} (hwf : n.wf = true) {e : ℕ}
    {bx : Box α} (hm : (e, bx) ∈ n.leaves) : box_le bx n.box = true := by
  induction n with
  | leaf e₀ b₀ =>
      simp [Node.leaves] at hm
      rw [hm.2, Node.box]
      exact box_le_refl b₀
  | branch b l r ihl ihr =>
      rw [Node.wf_branch] at hwf
      simp [Node.leaves] at hm
      rcases hm with hm | hm
      · exact box_le_trans (ihl hwf.2.2.1 hm) hwf.1
      · exact box_le_trans (ihr hwf.2.2.2 hm) hwf.2.1

/-- The §4.3 all-collisions characterization: on a well-formed node the query
returns exactly the entities whose leaf box (tolerantly) contains the point. -/
theorem mem_collisions_point {tol : α} {p : List α} {n : Node α}
    (hwf : n.wf = true) (e : ℕ) :
    e ∈ n.collisions_point tol p ↔
      ∃ bx, (e, bx) ∈ n.leaves ∧ contains_point tol bx p = true := by
  induction n with
  | leaf e₀ b₀ =>
      cases hc : contains_point tol b₀ p <;>
        simp [Node.collisions_point, Node.leaves, hc] <;> aesop
  | branch b l r ihl ihr =>
      have hparts := Node.wf_branch.mp hwf
      cases hc : contains_point tol b p
      · simp only [Node.collisions_point, hc, Bool.false_eq_true, if_false,
          List.not_mem_nil, false_iff, not_exists, not_and]
        intro bx hm hck
        have hcb : contains_point tol (Node.branch b l r).box p = true :=
          contains_point_of_box_le (box_le_of_mem_leaves hwf hm) hck
        rw [Node.box, hc] at hcb
        exact Bool.false_ne_true hcb
      · simp only [Node.collisions_point, hc, if_true, List.mem_append,
          Node.leaves]
        rw [ihl hparts.2.2.1, ihr hparts.2.2.2]
        simp only [or_and_right, exists_or]

/-- The §4.3 first-collision traversal returns the head of the all-collisions
traversal (both walk the tree depth first, left to right). -/
theorem first_collision_eq_head (tol : α) (p : List α) (n : Node α) :
    n.first_collision tol p = (n.collisions_point tol p).head? := by
  induction n with
  | leaf e₀ b₀ =>
      cases hc : contains_point tol b₀ p <;>
        simp [Node.first_collision, Node.collisions_point, hc]
  | branch b l r ihl ihr =>
      cases hc : contains_point tol b p
      · simp [Node.first_collision, Node.collisions_point, hc]
      · simp only [Node.first_collision, Node.collisions_point, hc, if_true,
          ihl, ihr]
        cases l.collisions_point tol p <;> simp

/-- The §4.4 characterization: on well-formed nodes the tree-to-tree traversal
emits exactly the leaf pairs whose boxes overlap. -/
theorem mem_collide (a b : Node α) : a.wf = true → b.wf = true →
    ∀ ea eb : ℕ,
      ((ea, eb) ∈ a.collide b ↔
        ∃ ba bb, (ea, ba) ∈ a.leaves ∧ (eb, bb) ∈ b.leaves ∧
          overlaps ba bb = true) := by
  induction a, b using Node.collide.induct with
  | case1 e₁ b₁ e₂ b₂ hov =>
      intro _ _ ea eb
      rw [Node.collide]
      simp only [Node.box] at hov
      simp [hov, Node.leaves]
      aesop
  | case2 e₁ b₁ bb bl br hov ih₁ ih₂ =>
      intro ha hb ea eb
      have hp := Node.wf_branch.mp hb
      rw [Node.collide]
      simp only [Node.box] at hov ⊢
      simp only [hov, if_true, List.mem_append]
      rw [ih₁ ha hp.2.2.1 ea eb, ih₂ ha hp.2.2.2 ea eb]
      simp only [Node.leaves, List.mem_append]
      constructor
      · rintro (⟨ba, bx, h₁, h₂, h₃⟩ | ⟨ba, bx, h₁, h₂, h₃⟩)
        · exact ⟨ba, bx, h₁, Or.inl h₂, h₃⟩
        · exact ⟨ba, bx, h₁, Or.inr h₂, h₃⟩
      · rintro ⟨ba, bx, h₁, h₂ | h₂, h₃⟩
        · exact Or.inl ⟨ba, bx, h₁, h₂, h₃⟩
        · exact Or.inr ⟨ba, bx, h₁, h₂, h₃⟩
  | case3 bxa al ar e₂ b₂ hov ih₁ ih₂ =>
      intro ha hb ea eb
      have hp := Node.wf_branch.mp ha
      rw [Node.collide]
      simp only [Node.box] at hov ⊢
      simp only [hov, if_true, List.mem_append]
      rw [ih₁ hp.2.2.1 hb ea eb, ih₂ hp.2.2.2 hb ea eb]
      simp only [Node.leaves, List.mem_append]
      constructor
      · rintro (⟨ba, bx, h₁, h₂, h₃⟩ | ⟨ba, bx, h₁, h₂, h₃⟩)
        · exact ⟨ba, bx, Or.inl h₁, h₂, h₃⟩
        · exact ⟨ba, bx, Or.inr h₁, h₂, h₃⟩
      · rintro ⟨ba, bx, h₁ | h₁, h₂, h₃⟩
        · exact Or.inl ⟨ba, bx, h₁, h₂, h₃⟩
        · exact Or.inr ⟨ba, bx, h₁, h₂, h₃⟩
  | case4 ba₀ al ar bb₀ bl br hvol hov ih₁ ih₂ =>
      intro ha hb ea eb
      have hp := Node.wf_branch.mp hb
      rw [Node.collide]
      simp only [Node.box] at hov ⊢
      simp only [hov, if_true, hvol, List.mem_append]
      rw [ih₁ ha hp.2.2.1 ea eb, ih₂ ha hp.2.2.2 ea eb]
      simp only [Node.leaves, List.mem_append]
      constructor
      · rintro (⟨ba, bx, h₁, h₂, h₃⟩ | ⟨ba, bx, h₁, h₂, h₃⟩)
        · exact ⟨ba, bx, h₁, Or.inl h₂, h₃⟩
        · exact ⟨ba, bx, h₁, Or.inr h₂, h₃⟩
      · rintro ⟨ba, bx, h₁, h₂ | h₂, h₃⟩
        · exact Or.inl ⟨ba, bx, h₁, h₂, h₃⟩
        · exact Or.inr ⟨ba, bx, h₁, h₂, h₃⟩
  | case5 ba₀ al ar bb₀ bl br hvol hov ih₁ ih₂ =>
      intro ha hb ea eb
      have hp := Node.wf_branch.mp ha
      rw [Node.collide]
      simp only [Node.box] at hov ⊢
      simp only [hov, if_true, hvol, if_false, List.mem_append]
      rw [ih₁ hp.2.2.1 hb ea eb, ih₂ hp.2.2.2 hb ea eb]
      simp only [Node.leaves, List.mem_append]
      constructor
      · rintro (⟨ba, bx, h₁, h₂, h₃⟩ | ⟨ba, bx, h₁, h₂, h₃⟩)
        · exact ⟨ba, bx, Or.inl h₁, h₂, h₃⟩
        · exact ⟨ba, bx, Or.inr h₁, h₂, h₃⟩
      · rintro ⟨ba, bx, h₁ | h₁, h₂, h₃⟩
        · exact Or.inl ⟨ba, bx, h₁, h₂, h₃⟩
        · exact Or.inr ⟨ba, bx, h₁, h₂, h₃⟩
  | case6 a b hov =>
      intro ha hb ea eb
      rw [Node.collide.eq_def]
      rw [Bool.not_eq_true] at hov
      simp only [hov, Bool.false_eq_true, if_false, List.not_mem_nil,
        false_iff, not_exists]
      intro ba bx
      rintro ⟨h₁, h₂, h₃⟩
      have : overlaps a.box b.box = true :=
        overlaps_of_box_le_right (box_le_of_mem_leaves hb h₂)
          (overlaps_of_box_le_left (box_le_of_mem_leaves ha h₁) h₃)
      rw [hov] at this
      exact Bool.false_ne_true this

/-- The §4.2 builder stores each input entity in exactly one leaf — the leaf
list is a permutation of the input. -/
theorem leaves_build_node (dim : ℕ) (items : List (ℕ × Box α)) (h : items ≠ []) :
    List.Perm (build_node dim items h).leaves items := by
  have key : ∀ (n : ℕ) (items : List (ℕ × Box α)) (h : items ≠ []),
      items.length = n → List.Perm (build_node dim items h).leaves items := by
    intro n
    induction n using Nat.strong_induction_on with
    | _ n ih =>
        intro items h hn
        subst hn
        rw [build_node]
        by_cases hlen : items.length ≤ 1
        · simp only [hlen, dif_pos]
          obtain ⟨a, ha⟩ : ∃ a, items = [a] := by
            cases items with
            | nil => exact absurd rfl h
            | cons x t =>
                cases t with
                | nil => exact ⟨x, rfl⟩
                | cons y t => simp at hlen
          subst ha
          simp [Node.leaves]
        · simp only [hlen, dif_neg, not_false_iff]
          have ih₁ := ih (split_lo dim items).length
            (by rw [length_split_lo]; omega) (split_lo dim items)
            (split_lo_ne_nil hlen) rfl
          have ih₂ := ih (split_hi dim items).length
            (by rw [length_split_hi]; omega) (split_hi dim items)
            (split_hi_ne_nil hlen) rfl
          have hp := List.Perm.append ih₁ ih₂
          exact List.Perm.trans hp (perm_split_append dim items)
  exact key items.length items h rfl
theorem mem_of_mem_split_lo {dim : ℕ} {items : List (ℕ × Box α)}
    {x : ℕ × Box α} (hm : x ∈ split_lo dim items) : x ∈ items := by
  rw [split_lo] at hm
  exact (List.perm_insertionSort _ items).mem_iff.mp (List.mem_of_mem_take hm)

theorem mem_of_mem_split_hi {dim : ℕ} {items : List (ℕ × Box α)}
    {x : ℕ × Box α} (hm : x ∈ split_hi dim items) : x ∈ items := by
  rw [split_hi] at hm
  exact (List.perm_insertionSort _ items).mem_iff.mp (List.mem_of_mem_drop hm)

/-- The §3 invariants hold for built trees: when every input box has the ambient
dimension `d`, the builder returns a well-formed node whose box also has
dimension `d` (each internal box is the union of its children's boxes, hence
contains them). -/
theorem build_node_wf (dim d : ℕ) (items : List (ℕ × Box α)) (h : items ≠ [])
    (hd : ∀ x ∈ items, (x.2 : Box α).length = d) :
    (build_node dim items h).wf = true ∧
      (build_node dim items h).box.length = d := by
  have key : ∀ (n : ℕ) (items : List (ℕ × Box α)) (h : items ≠ []),
      items.length = n → (∀ x ∈ items, (x.2 : Box α).length = d) →
      (build_node dim items h).wf = true ∧
        (build_node dim items h).box.length = d := by
    intro n
    induction n using Nat.strong_induction_on with
    | _ n ih =>
        intro items h hn hd
        subst hn
        rw [build_node]
        by_cases hlen : items.length ≤ 1
        · simp only [hlen, dif_pos]
          exact ⟨rfl, hd _ (List.head_mem h)⟩
        · simp only [hlen, dif_neg, not_false_iff]
          have ih₁ := ih (split_lo dim items).length
            (by rw [length_split_lo]; omega) (split_lo dim items)
            (split_lo_ne_nil hlen) rfl
            (fun x hx => hd x (mem_of_mem_split_lo hx))
          have ih₂ := ih (split_hi dim items).length
            (by rw [length_split_hi]; omega) (split_hi dim items)
            (split_hi_ne_nil hlen) rfl
            (fun x hx => hd x (mem_of_mem_split_hi hx))
          have hlen₂ : (build_node dim (split_lo dim items)
              (split_lo_ne_nil hlen)).box.length =
              (build_node dim (split_hi dim items)
                (split_hi_ne_nil hlen)).box.length := by
            rw [ih₁.2, ih₂.2]
          constructor
          · rw [Node.wf_branch]
            refine ⟨?_, ?_, ih₁.1, ih₂.1⟩
            · exact box_le_box_union_left _ _ hlen₂
            · exact box_le_box_union_right _ _ hlen₂
          · rw [Node.box, length_box_union _ _ hlen₂, ih₁.2]
  exact key items.length items h rfl hd

/-- Built trees are well formed. -/
theorem build_wf (dim d : ℕ) (items : List (ℕ × Box α))
    (hd : ∀ x ∈ items, (x.2 : Box α).length = d) :
    (build dim items).wf = true := by
  rw [build]
  by_cases h : items = []
  · simp [h, Tree.wf]
  · simp only [h, dif_neg, not_false_iff]
    exact (build_node_wf dim d items h hd).1

/-- C2: for every tree and query point, `compute_first_collision` returns a
member of `compute_collisions(p)`, and returns none exactly when that set is
empty (§8; which member is returned is not part of the claim). -/
theorem compute_first_collision_spec (tol : α) (p : List α) (t : Tree α) :
    (∀ e : ℕ, compute_first_collision tol t p = some e →
      e ∈ compute_collisions_point tol t p) ∧
    (compute_first_collision tol t p = none ↔
      compute_collisions_point tol t p = []) := by
  cases t with
  | none =>
      refine ⟨?_, ?_⟩
      · intro e he
        simp [compute_first_collision] at he
      · simp [compute_first_collision, compute_collisions_point]
  | some n =>
      simp only [compute_first_collision, compute_collisions_point,
        first_collision_eq_head]
      refine ⟨?_, List.head?_eq_none_iff⟩
      intro e he
      cases hl : n.collisions_point tol p with
      | nil => rw [hl] at he; simp at he
      | cons x l => rw [hl] at he; simp at he; simp [he]

/-- C6: building over zero entities succeeds and yields the empty tree, and
the empty tree answers the empty set to every point query, none to every
first-collision query, and no pairs to every tree-to-tree query (§4.2, §7). -/
theorem empty_tree_spec (dim : ℕ) (tol : α) (p : List α) (t : Tree α) :
    build dim ([] : List (ℕ × Box α)) = none ∧
    compute_collisions_point tol (none : Tree α) p = [] ∧
    compute_first_collision tol (none : Tree α) p = none ∧
    compute_collisions_bb (none : Tree α) t = [] ∧
    compute_collisions_bb t (none : Tree α) = [] := by
  refine ⟨rfl, rfl, rfl, rfl, ?_⟩
  cases t <;> rfl

/-- C4: tree-to-tree collisions are symmetric on well-formed trees —
`(e_a, e_b) ∈ collisions(A,B) ⇔ (e_b, e_a) ∈ collisions(B,A)` (§8). -/
theorem compute_collisions_bb_symm (ta tb : Tree α)
    (hwa : ta.wf = true) (hwb : tb.wf = true) (ea eb : ℕ) :
    ((ea, eb) ∈ compute_collisions_bb ta tb ↔
      (eb, ea) ∈ compute_collisions_bb tb ta) := by
  cases ta with
  | none => cases tb <;> simp [compute_collisions_bb]
  | some a =>
      cases tb with
      | none => simp [compute_collisions_bb]
      | some b =>
          simp only [compute_collisions_bb]
          rw [mem_collide a b hwa hwb, mem_collide b a hwb hwa]
          constructor
          · rintro ⟨ba, bb, h₁, h₂, h₃⟩
            exact ⟨bb, ba, h₂, h₁, by rw [overlaps_symm]; exact h₃⟩
          · rintro ⟨bb, ba, h₂, h₁, h₃⟩
            exact ⟨ba, bb, h₁, h₂, by rw [overlaps_symm]; exact h₃⟩

/-- Membership characterization of a point query against a built tree: the
result is exactly the set of input entities whose box (tolerantly) contains
the point. -/
theorem mem_compute_collisions_point_build (dim d : ℕ) (tol : α)
    (items : List (ℕ × Box α)) (p : List α)
    (hd : ∀ x ∈ items, (x.2 : Box α).length = d) (e : ℕ) :
    (e ∈ compute_collisions_point tol (build dim items) p ↔
      ∃ bx, (e, bx) ∈ items ∧ contains_point tol bx p = true) := by
  rw [build]
  by_cases h : items = []
  · subst h
    simp [compute_collisions_point]
  · simp only [h, dif_neg, not_false_iff, compute_collisions_point]
    rw [mem_collisions_point (build_node_wf dim d items h hd).1]
    constructor
    · rintro ⟨bx, hm, hc⟩
      exact ⟨bx, (leaves_build_node dim items h).mem_iff.mp hm, hc⟩
    · rintro ⟨bx, hm, hc⟩
      exact ⟨bx, (leaves_build_node dim items h).mem_iff.mpr hm, hc⟩

/-- Membership characterization of the tree-to-tree query against built
trees: the result is exactly the set of input pairs whose boxes overlap. -/
theorem mem_compute_collisions_bb_build (dim d : ℕ)
    (itemsA itemsB : List (ℕ × Box α))
    (hdA : ∀ x ∈ itemsA, (x.2 : Box α).length = d)
    (hdB : ∀ x ∈ itemsB, (x.2 : Box α).length = d) (ea eb : ℕ) :
    ((ea, eb) ∈ compute_collisions_bb (build dim itemsA) (build dim itemsB) ↔
      ∃ ba bb, (ea, ba) ∈ itemsA ∧ (eb, bb) ∈ itemsB ∧
        overlaps ba bb = true) := by
  rw [build, build]
  by_cases ha : itemsA = []
  · subst ha
    simp [compute_collisions_bb]
  · by_cases hb : itemsB = []
    · subst hb
      simp [compute_collisions_bb, dif_neg, ha]
    · simp only [ha, hb, dif_neg, not_false_iff, compute_collisions_bb]
      rw [mem_collide _ _ (build_node_wf dim d itemsA ha hdA).1
        (build_node_wf dim d itemsB hb hdB).1]
      constructor
      · rintro ⟨ba, bb, h₁, h₂, h₃⟩
        exact ⟨ba, bb, (leaves_build_node dim itemsA ha).mem_iff.mp h₁,
          (leaves_build_node dim itemsB hb).mem_iff.mp h₂, h₃⟩
      · rintro ⟨ba, bb, h₁, h₂, h₃⟩
        exact ⟨ba, bb, (leaves_build_node dim itemsA ha).mem_iff.mpr h₁,
          (leaves_build_node dim itemsB hb).mem_iff.mpr h₂, h₃⟩

/-- C1: on the 16-cell unit-interval mesh, the all-collisions query at
x = 0.3 returns exactly the set {4} (§8 concrete 1D scenario; 0.3 lies in
[4/16, 5/16)). -/
theorem c1_collisions_point (e : ℕ) :
    (e ∈ compute_collisions_point 0 (build 1 c1_cells) c1_point ↔ e = 4) := by
  rw [mem_compute_collisions_point_build 1 1 0 c1_cells c1_point
    (by intro x hx; simp [c1_cells] at hx; obtain ⟨i, _, rfl⟩ := hx; rfl) e]
  simp only [c1_cells, c1_point, List.mem_map, List.mem_range]
  constructor
  · rintro ⟨bx, ⟨i, hi, heq⟩, hc⟩
    injection heq with h1 h2
    subst h1
    subst h2
    simp only [contains_point, Bool.and_eq_true, decide_eq_true_eq] at hc
    interval_cases i <;> norm_num at hc ⊢
  · rintro rfl
    refine ⟨[((4 : ℚ) / 16, ((4 : ℚ) + 1) / 16)], ⟨4, by norm_num, by norm_num⟩, ?_⟩
    simp only [contains_point, Bool.and_eq_true, decide_eq_true_eq]
    norm_num

theorem qscale_le_iff {x y : ℤ} : qscale x ≤ qscale y ↔ x ≤ y := by
  rw [qscale, qscale]
  rw [div_le_div_iff_of_pos_right (by norm_num : (0 : ℚ) < 100)]
  exact Int.cast_le

/-- Scaling all coordinates from hundredths to exact rationals preserves box
overlap. -/
theorem overlaps_qscale_box (a b : Box ℤ) :
    overlaps (qscale_box a) (qscale_box b) = overlaps a b := by
  induction a generalizing b with
  | nil => cases b with
    | nil => rfl
    | cons q b => cases q; simp [qscale_box, overlaps]
  | cons q a ih =>
      cases q
      cases b with
      | nil => simp [qscale_box, overlaps]
      | cons q₂ b =>
          cases q₂
          simp only [qscale_box, List.map_cons, overlaps]
          rw [← qscale_box, ← qscale_box, ih]
          simp [qscale_le_iff]

/-- C3 at the level of sub-cubes (in hundredth coordinates): sub-cube `a` of
mesh A and sub-cube `b` of the translated mesh B have overlapping boxes
exactly for the pairs (3,0), (7,0), (7,4). -/
theorem c3_cube_overlap :
    ∀ a < 8, ∀ b < 8,
      (overlaps (c3_zbox 0 0 0 a) (c3_zbox 52 51 30 b) = true ↔
        ((a = 3 ∧ b = 0) ∨ (a = 7 ∧ b = 0) ∨ (a = 7 ∧ b = 4))) := by
  decide

/-- C3, pair level: a pair (ea, eb) collides exactly when both are cell
indices and their sub-cube boxes overlap. -/
theorem c3_pair_mem (ea eb : ℕ) :
    ((ea, eb) ∈ compute_collisions_bb (build 3 c3_cellsA) (build 3 c3_cellsB) ↔
      (ea < 48 ∧ eb < 48 ∧
        overlaps (c3_zbox 0 0 0 (ea / 6)) (c3_zbox 52 51 30 (eb / 6)) = true)) := by
  rw [mem_compute_collisions_bb_build 3 3 c3_cellsA c3_cellsB
    (by intro x hx; simp [c3_cellsA] at hx; obtain ⟨i, _, rfl⟩ := hx; rfl)
    (by intro x hx; simp [c3_cellsB] at hx; obtain ⟨i, _, rfl⟩ := hx; rfl)]
  constructor
  · rintro ⟨ba, bb, hma, hmb, hov⟩
    simp only [c3_cellsA, List.mem_map, List.mem_range] at hma
    simp only [c3_cellsB, List.mem_map, List.mem_range] at hmb
    obtain ⟨i, hi, heqa⟩ := hma
    obtain ⟨j, hj, heqb⟩ := hmb
    injection heqa with ha1 ha2
    injection heqb with hb1 hb2
    subst ha1; subst hb1; subst ha2; subst hb2
    rw [overlaps_qscale_box] at hov
    exact ⟨hi, hj, hov⟩
  · rintro ⟨hi, hj, hov⟩
    refine ⟨qscale_box (c3_zbox 0 0 0 (ea / 6)),
      qscale_box (c3_zbox 52 51 30 (eb / 6)), ?_, ?_, ?_⟩
    · simp only [c3_cellsA, List.mem_map, List.mem_range]
      exact ⟨ea, hi, rfl⟩
    · simp only [c3_cellsB, List.mem_map, List.mem_range]
      exact ⟨eb, hj, rfl⟩
    · rw [overlaps_qscale_box]
      exact hov

/-- C3: for the two 2×2×2 unit-cube meshes with mesh B translated by
(0.52, 0.51, 0.3), the tree-to-tree cell query's colliding entities are
exactly the reference sets {18..23, 42..47} on side A and {0..5, 24..29} on
side B (§8 concrete 3D scenario, `test_compute_collisions_tree_3d`). -/
theorem c3_collisions_tree (ea eb : ℕ) :
    ((∃ e₂, (ea, e₂) ∈
        compute_collisions_bb (build 3 c3_cellsA) (build 3 c3_cellsB)) ↔
      ea ∈ c3_refA) ∧
    ((∃ e₁, (e₁, eb) ∈
        compute_collisions_bb (build 3 c3_cellsA) (build 3 c3_cellsB)) ↔
      eb ∈ c3_refB) := by
  constructor
  · constructor
    · rintro ⟨e₂, hm⟩
      rw [c3_pair_mem] at hm
      obtain ⟨hi, hj, hov⟩ := hm
      have hcube := (c3_cube_overlap (ea / 6) (by omega) (e₂ / 6)
        (by omega)).mp hov
      simp only [c3_refA, List.mem_cons, List.not_mem_nil, or_false]
      omega
    · intro hm
      simp only [c3_refA, List.mem_cons, List.not_mem_nil, or_false] at hm
      refine ⟨0, ?_⟩
      rw [c3_pair_mem]
      refine ⟨by omega, by omega, ?_⟩
      have h36 : ea / 6 = 3 ∨ ea / 6 = 7 := by omega
      rcases h36 with h36 | h36 <;> rw [h36] <;> decide
  · constructor
    · rintro ⟨e₁, hm⟩
      rw [c3_pair_mem] at hm
      obtain ⟨hi, hj, hov⟩ := hm
      have hcube := (c3_cube_overlap (e₁ / 6) (by omega) (eb / 6)
        (by omega)).mp hov
      simp only [c3_refB, List.mem_cons, List.not_mem_nil, or_false]
      omega
    · intro hm
      simp only [c3_refB, List.mem_cons, List.not_mem_nil, or_false] at hm
      refine ⟨42, ?_⟩
      rw [c3_pair_mem]
      refine ⟨by omega, by omega, ?_⟩
      have h04 : eb / 6 = 0 ∨ eb / 6 = 4 := by omega
      have h7 : (42 : ℕ) / 6 = 7 := by norm_num
      rcases h04 with h04 | h04 <;> rw [h04, h7] <;> decide

theorem axis_dist_sq_nonneg (l h x : α) : 0 ≤ axis_dist_sq l h x := by
  rw [axis_dist_sq]
  split
  · positivity
  · split
    · positivity
    · exact le_rfl

theorem lower_bound_distance_sq_nonneg (b : Box α) (p : List α) :
    0 ≤ lower_bound_distance_sq b p := by
  induction b generalizing p with
  | nil => rw [lower_bound_distance_sq.eq_def]
  | cons q b ih =>
      cases q
      cases p with
      | nil => rw [lower_bound_distance_sq.eq_def]
      | cons x t =>
          rw [lower_bound_distance_sq]
          exact add_nonneg (axis_dist_sq_nonneg _ _ _) (ih t)

/-- The §4.1 lower bound is antitone in the box: enlarging a proper interval
can only shrink the distance to a point. -/
theorem axis_dist_sq_le (L H l h x : α) (hL : L ≤ l) (hH : h ≤ H)
    (hp : l ≤ h) : axis_dist_sq L H x ≤ axis_dist_sq l h x := by
  rw [axis_dist_sq, axis_dist_sq]
  by_cases h₁ : x < L
  · have h₂ : x < l := lt_of_lt_of_le h₁ hL
    simp only [h₁, if_pos, h₂]
    have h₃ : (0 : α) ≤ L - x := by linarith
    have h₄ : L - x ≤ l - x := by linarith
    exact pow_le_pow_left₀ h₃ h₄ 2
  · simp only [h₁, if_neg, not_false_iff]
    by_cases h₂ : H < x
    · have h₃ : h < x := lt_of_le_of_lt hH h₂
      have h₄ : ¬x < l := by intro hc; exact absurd (lt_trans hc (lt_of_le_of_lt hp h₃)) (lt_irrefl x)
      simp only [h₂, if_pos, h₄, if_neg, not_false_iff, h₃]
      have h₅ : (0 : α) ≤ x - H := by linarith
      have h₆ : x - H ≤ x - h := by linarith
      exact pow_le_pow_left₀ h₅ h₆ 2
    · simp only [h₂, if_neg, not_false_iff]
      have hnn := axis_dist_sq_nonneg l h x
      rw [axis_dist_sq] at hnn
      exact hnn

theorem lower_bound_distance_sq_le_of_box_le {a A : Box α} (p : List α)
    (hle : box_le a A = true) (hp : proper_box a = true) :
    lower_bound_distance_sq A p ≤ lower_bound_distance_sq a p := by
  induction a generalizing A p with
  | nil =>
      cases A with
      | nil => exact le_rfl
      | cons q A => simp [box_le] at hle
  | cons q a ih =>
      cases q with
      | mk l h =>
        cases A with
        | nil => simp [box_le] at hle
        | cons Q A =>
            cases Q with
            | mk L H =>
              simp only [box_le, Bool.and_eq_true, decide_eq_true_eq] at hle
              simp only [proper_box, List.all_cons, Bool.and_eq_true,
                decide_eq_true_eq] at hp
              cases p with
              | nil =>
                  rw [lower_bound_distance_sq.eq_def,
                    lower_bound_distance_sq.eq_def]
              | cons x t =>
                  rw [lower_bound_distance_sq, lower_bound_distance_sq]
                  have hax := axis_dist_sq_le L H l h x hle.1.1 hle.1.2 hp.1
                  have hrest := ih t hle.2 hp.2
                  exact add_le_add hax hrest

theorem proper_box_of_mem_leaves {n : Node α} (hpr : n.proper = true)
    {e : ℕ} {bx : Box α} (hm : (e, bx) ∈ n.leaves) : proper_box bx = true := by
  induction n with
  | leaf e₀ b₀ =>
      simp [Node.leaves] at hm
      rw [hm.2]
      exact hpr
  | branch b l r ihl ihr =>
      simp only [Node.proper, Bool.and_eq_true] at hpr
      simp only [Node.leaves, List.mem_append] at hm
      rcases hm with hm | hm
      · exact ihl hpr.1.2 hm
      · exact ihr hpr.2 hm

/-- A queue entry's key is a lower bound for the exact distance of every
entity below it (§4.5 admissible-heuristic property). -/
theorem item_lb_le {dist_sq : ℕ → α} {p : List α} {x : α × Node α}
    (hx : item_inv dist_sq p x) :
    ∀ ebx ∈ x.2.leaves, x.1 ≤ dist_sq ebx.1 := by
  rintro ⟨e, bx⟩ hm
  have h₁ : box_le bx x.2.box = true := box_le_of_mem_leaves hx.1 hm
  have h₂ : proper_box bx = true := proper_box_of_mem_leaves hx.2.1 hm
  have h₃ := lower_bound_distance_sq_le_of_box_le p h₁ h₂
  have h₄ := hx.2.2.2 (e, bx) hm
  rw [hx.2.2.1]
  exact le_trans h₃ h₄

theorem lex_asymm {d₁ d₂ : α} {e₁ e₂ : ℕ}
    (h : d₁ < d₂ ∨ (d₁ = d₂ ∧ e₁ < e₂)) :
    ¬(d₂ < d₁ ∨ (d₂ = d₁ ∧ e₂ < e₁)) := by
  rintro (g | ⟨g, g₂⟩) <;> rcases h with h | ⟨h, h₂⟩
  · exact absurd (lt_trans h g) (lt_irrefl _)
  · rw [h] at g; exact absurd g (lt_irrefl _)
  · rw [g] at h; exact absurd h (lt_irrefl _)
  · omega

theorem lex_lt_trans {d₁ d₂ d₃ : α} {e₁ e₂ e₃ : ℕ}
    (h : d₁ < d₂ ∨ (d₁ = d₂ ∧ e₁ < e₂))
    (g : d₂ < d₃ ∨ (d₂ = d₃ ∧ e₂ < e₃)) :
    d₁ < d₃ ∨ (d₁ = d₃ ∧ e₁ < e₃) := by
  rcases h with h | ⟨h, h₂⟩ <;> rcases g with g | ⟨g, g₂⟩
  · exact Or.inl (lt_trans h g)
  · exact Or.inl (g ▸ h)
  · exact Or.inl (h ▸ g)
  · exact Or.inr ⟨h.trans g, Nat.lt_trans h₂ g₂⟩

theorem lex_eq_of_not_lt {d₁ d₂ : α} {e₁ e₂ : ℕ}
    (h : ¬(d₁ < d₂ ∨ (d₁ = d₂ ∧ e₁ < e₂)))
    (g : ¬(d₂ < d₁ ∨ (d₂ = d₁ ∧ e₂ < e₁))) : d₁ = d₂ ∧ e₁ = e₂ := by
  push_neg at h g
  rcases lt_trichotomy d₁ d₂ with hd | hd | hd
  · exact absurd hd (not_lt.mpr h.1)
  · refine ⟨hd, ?_⟩
    have := h.2 hd
    have := g.2 hd.symm
    omega
  · exact absurd hd (not_lt.mpr g.1)

/-- The running-best update is permutation-insensitive: updates commute. -/
theorem best_update_comm (b : Option (ℕ × α)) (e₁ : ℕ) (d₁ : α) (e₂ : ℕ)
    (d₂ : α) :
    best_update (best_update b e₁ d₁) e₂ d₂ =
      best_update (best_update b e₂ d₂) e₁ d₁ := by
  cases b with
  | none =>
      simp only [best_update]
      by_cases h₃ : d₂ < d₁ ∨ (d₂ = d₁ ∧ e₂ < e₁)
      · have h₄ := lex_asymm h₃
        simp [h₃, h₄]
      · by_cases h₄ : d₁ < d₂ ∨ (d₁ = d₂ ∧ e₁ < e₂)
        · simp [h₃, h₄]
        · obtain ⟨hd, he⟩ := lex_eq_of_not_lt h₄ h₃
          simp [h₃, h₄, hd, he]
  | some v =>
      obtain ⟨e₀, d₀⟩ := v
      simp only [best_update]
      by_cases h₁ : d₁ < d₀ ∨ (d₁ = d₀ ∧ e₁ < e₀) <;>
        by_cases h₂ : d₂ < d₀ ∨ (d₂ = d₀ ∧ e₂ < e₀)
      · by_cases h₃ : d₂ < d₁ ∨ (d₂ = d₁ ∧ e₂ < e₁)
        · have h₄ := lex_asymm h₃
          simp [h₁, h₂, h₃, h₄]
        · by_cases h₄ : d₁ < d₂ ∨ (d₁ = d₂ ∧ e₁ < e₂)
          · simp [h₁, h₂, h₃, h₄]
          · obtain ⟨hd, he⟩ := lex_eq_of_not_lt h₄ h₃
            simp [h₁, h₂, h₃, h₄, hd, he]
      · have h₃ : ¬(d₂ < d₁ ∨ (d₂ = d₁ ∧ e₂ < e₁)) := fun h₃ =>
          h₂ (lex_lt_trans h₃ h₁)
        simp [h₁, h₂, h₃]
      · have h₄ : ¬(d₁ < d₂ ∨ (d₁ = d₂ ∧ e₁ < e₂)) := fun h₄ =>
          h₁ (lex_lt_trans h₄ h₂)
        simp [h₁, h₂, h₄]
      · simp [h₁, h₂]

theorem fold_best_cons (dist_sq : ℕ → α) (b : Option (ℕ × α)) (e : ℕ)
    (t : List ℕ) :
    fold_best dist_sq b (e :: t) =
      fold_best dist_sq (best_update b e (dist_sq e)) t := rfl

theorem fold_best_perm (dist_sq : ℕ → α) (b : Option (ℕ × α))
    {es es' : List ℕ} (hp : List.Perm es es') :
    fold_best dist_sq b es = fold_best dist_sq b es' :=
  @List.Perm.foldl_eq _ _ _ _ _
    ⟨fun b e₁ e₂ => best_update_comm b e₁ (dist_sq e₁) e₂ (dist_sq e₂)⟩ hp b

/-- Entities strictly farther than the running best never displace it. -/
theorem fold_best_gt (dist_sq : ℕ → α) (e₀ : ℕ) (d₀ : α) (es : List ℕ)
    (h : ∀ e ∈ es, d₀ < dist_sq e) :
    fold_best dist_sq (some (e₀, d₀)) es = some (e₀, d₀) := by
  induction es with
  | nil => rfl
  | cons e t ih =>
      rw [fold_best_cons]
      have hd := h e (List.mem_cons_self e t)
      have hne : ¬(dist_sq e < d₀ ∨ (dist_sq e = d₀ ∧ e < e₀)) := by
        rintro (g | ⟨g, _⟩)
        · exact absurd (lt_trans hd g) (lt_irrefl _)
        · rw [g] at hd; exact absurd hd (lt_irrefl _)
      simp only [best_update, hne, if_neg, not_false_iff]
      exact ih fun e' he' => h e' (List.mem_cons_of_mem _ he')

theorem mem_pq_insert {x z : α × Node α} {q : List (α × Node α)} :
    z ∈ pq_insert x q ↔ z = x ∨ z ∈ q := by
  induction q with
  | nil => simp [pq_insert]
  | cons y t ih =>
      rw [pq_insert]
      by_cases hle : x.1 ≤ y.1
      · simp [hle]
      · simp only [hle, if_false, List.mem_cons, ih]
        tauto

theorem pq_sorted_insert (x : α × Node α) {q : List (α × Node α)}
    (hs : pq_sorted q) : pq_sorted (pq_insert x q) := by
  induction q with
  | nil => simp [pq_insert, pq_sorted]
  | cons y t ih =>
      rw [pq_insert]
      by_cases hle : x.1 ≤ y.1
      · rw [if_pos hle]
        rw [pq_sorted, List.pairwise_cons]
        refine ⟨?_, hs⟩
        intro z hz
        rcases List.mem_cons.mp hz with rfl | hz
        · exact hle
        · exact le_trans hle ((List.pairwise_cons.mp hs).1 z hz)
      · rw [if_neg hle]
        rw [pq_sorted, List.pairwise_cons] at hs ⊢
        refine ⟨?_, ih hs.2⟩
        intro z hz
        rcases mem_pq_insert.mp hz with rfl | hz
        · exact le_of_not_le hle
        · exact hs.1 z hz

theorem queue_entities_pq_insert_perm (x : α × Node α)
    (q : List (α × Node α)) :
    List.Perm (queue_entities (pq_insert x q))
      (x.2.entities ++ queue_entities q) := by
  induction q with
  | nil => simp [pq_insert, queue_entities]
  | cons y t ih =>
      rw [pq_insert]
      by_cases hle : x.1 ≤ y.1
      · rw [if_pos hle]
        exact List.Perm.refl _
      · rw [if_neg hle]
        show List.Perm (y.2.entities ++ queue_entities (pq_insert x t)) _
        refine List.Perm.trans (List.Perm.append_left _ ih) ?_
        show List.Perm (y.2.entities ++ (x.2.entities ++ queue_entities t))
          (x.2.entities ++ (y.2.entities ++ queue_entities t))
        rw [← List.append_assoc, ← List.append_assoc]
        exact List.Perm.append_right _ List.perm_append_comm

theorem mem_queue_entities {e : ℕ} {q : List (α × Node α)}
    (hm : e ∈ queue_entities q) : ∃ x ∈ q, e ∈ x.2.entities := by
  induction q with
  | nil => simp [queue_entities] at hm
  | cons y t ih =>
      rw [queue_entities] at hm
      rcases List.mem_append.mp hm with hm | hm
      · exact ⟨y, List.mem_cons_self y t, hm⟩
      · obtain ⟨x, hx, hex⟩ := ih hm
        exact ⟨x, List.mem_cons_of_mem _ hx, hex⟩

theorem Node.size_pos (n : Node α) : 0 < n.size := by
  cases n <;> simp [Node.size]

theorem Node.entities_branch (b : Box α) (l r : Node α) :
    (Node.branch b l r).entities = l.entities ++ r.entities := by
  simp [Node.entities, Node.leaves]

theorem Node.leaves_ne_nil (n : Node α) : n.leaves ≠ [] := by
  induction n with
  | leaf e b => simp [Node.leaves]
  | branch b l r ihl ihr => simp [Node.leaves, ihl]

theorem item_lb_le_entity {dist_sq : ℕ → α} {p : List α} {x : α × Node α}
    (hx : item_inv dist_sq p x) {e : ℕ} (he : e ∈ x.2.entities) :
    x.1 ≤ dist_sq e := by
  rw [Node.entities] at he
  obtain ⟨⟨e', bx⟩, hm, heq⟩ := List.mem_map.mp he
  cases heq
  exact item_lb_le hx (e', bx) hm

/-- The §4.5 search correctness: on a sorted queue of admissible well-formed
nodes, the best-first search returns the same running best as folding the
update over every entity below the queue — pruning discards only provably
farther entities. -/
theorem search_eq (dist_sq : ℕ → α) (p : List α) :
    ∀ (q : List (α × Node α)) (best : Option (ℕ × α)),
      pq_sorted q → (∀ x ∈ q, item_inv dist_sq p x) →
      search dist_sq p q best = fold_best dist_sq best (queue_entities q) := by
  have key : ∀ (N : ℕ) (q : List (α × Node α)), queue_size q ≤ N →
      ∀ best, pq_sorted q → (∀ x ∈ q, item_inv dist_sq p x) →
      search dist_sq p q best = fold_best dist_sq best (queue_entities q) := by
    intro N
    induction N with
    | zero =>
        intro q hq best hs hinv
        cases q with
        | nil => rw [search.eq_def]; rfl
        | cons y t =>
            exfalso
            have := Node.size_pos y.2
            rw [queue_size] at hq
            omega
    | succ N ih =>
        intro q hq best hs hinv
        cases q with
        | nil => rw [search.eq_def]; rfl
        | cons hd rest =>
            obtain ⟨lb, n⟩ := hd
            rw [search.eq_def]
            dsimp only
            by_cases hpr : prune_check best lb = true
            · rw [if_pos hpr]
              cases best with
              | none => simp [prune_check] at hpr
              | some v =>
                  obtain ⟨e₀, d₀⟩ := v
                  simp only [prune_check, decide_eq_true_eq] at hpr
                  refine (fold_best_gt dist_sq e₀ d₀ _ ?_).symm
                  intro e he
                  rw [queue_entities] at he
                  rcases List.mem_append.mp he with he | he
                  · exact lt_of_lt_of_le hpr (item_lb_le_entity
                      (hinv (lb, n) (List.mem_cons_self _ _)) he)
                  · obtain ⟨x, hxr, hex⟩ := mem_queue_entities he
                    have hlbx : lb ≤ x.1 := (List.pairwise_cons.mp hs).1 x hxr
                    have := item_lb_le_entity
                      (hinv x (List.mem_cons_of_mem _ hxr)) hex
                    exact lt_of_lt_of_le hpr (le_trans hlbx this)
            · rw [if_neg hpr]
              cases n with
              | leaf e b =>
                  dsimp only
                  rw [ih rest (by rw [queue_size, Node.size] at hq; omega) _
                    (List.pairwise_cons.mp hs).2
                    (fun x hx => hinv x (List.mem_cons_of_mem _ hx))]
                  have hqe : queue_entities ((lb, Node.leaf e b) :: rest)
                      = e :: queue_entities rest := by
                    simp [queue_entities, Node.entities, Node.leaves]
                  rw [hqe, fold_best_cons]
              | branch bb l r =>
                  have hinv₀ := hinv (lb, .branch bb l r)
                    (List.mem_cons_self _ _)
                  obtain ⟨hwf₀, hpr₀, hlb₀, hadm₀⟩ := hinv₀
                  have hwfp := Node.wf_branch.mp hwf₀
                  have hprp : proper_box bb = true ∧ l.proper = true ∧
                      r.proper = true := by
                    simpa [Node.proper, Bool.and_eq_true, and_assoc] using hpr₀
                  have hinvl : item_inv dist_sq p
                      (lower_bound_distance_sq l.box p, l) :=
                    ⟨hwfp.2.2.1, hprp.2.1, rfl, fun ebx hm =>
                      hadm₀ ebx (by
                        simp only [Node.leaves, List.mem_append]
                        exact Or.inl hm)⟩
                  have hinvr : item_inv dist_sq p
                      (lower_bound_distance_sq r.box p, r) :=
                    ⟨hwfp.2.2.2, hprp.2.2, rfl, fun ebx hm =>
                      hadm₀ ebx (by
                        simp only [Node.leaves, List.mem_append]
                        exact Or.inr hm)⟩
                  have hstail : pq_sorted rest := (List.pairwise_cons.mp hs).2
                  have hsq : pq_sorted
                      (pq_insert (lower_bound_distance_sq l.box p, l)
                        (pq_insert (lower_bound_distance_sq r.box p, r) rest)) :=
                    pq_sorted_insert _ (pq_sorted_insert _ hstail)
                  have hinvq : ∀ x ∈ pq_insert
                      (lower_bound_distance_sq l.box p, l)
                      (pq_insert (lower_bound_distance_sq r.box p, r) rest),
                      item_inv dist_sq p x := by
                    intro x hx
                    rcases mem_pq_insert.mp hx with rfl | hx
                    · exact hinvl
                    · rcases mem_pq_insert.mp hx with rfl | hx
                      · exact hinvr
                      · exact hinv x (List.mem_cons_of_mem _ hx)
                  have hsize : queue_size
                      (pq_insert (lower_bound_distance_sq l.box p, l)
                        (pq_insert (lower_bound_distance_sq r.box p, r) rest))
                      ≤ N := by
                    rw [queue_size_pq_insert, queue_size_pq_insert]
                    dsimp only
                    rw [queue_size, Node.size] at hq
                    omega
                  dsimp only
                  rw [ih _ hsize _ hsq hinvq]
                  refine fold_best_perm dist_sq best ?_
                  refine (queue_entities_pq_insert_perm _ _).trans ?_
                  refine (List.Perm.append_left _
                    (queue_entities_pq_insert_perm _ _)).trans ?_
                  show List.Perm
                    (l.entities ++ (r.entities ++ queue_entities rest))
                    ((Node.branch bb l r).entities ++ queue_entities rest)
                  rw [Node.entities_branch, List.append_assoc]
  intro q best hs hinv
  exact key (queue_size q) q le_rfl best hs hinv

theorem lex_le_trans {d₁ d₂ d₃ : α} {e₁ e₂ e₃ : ℕ}
    (h : d₁ < d₂ ∨ (d₁ = d₂ ∧ e₁ ≤ e₂))
    (g : d₂ < d₃ ∨ (d₂ = d₃ ∧ e₂ ≤ e₃)) :
    d₁ < d₃ ∨ (d₁ = d₃ ∧ e₁ ≤ e₃) := by
  rcases h with h | ⟨h, h₂⟩ <;> rcases g with g | ⟨g, g₂⟩
  · exact Or.inl (lt_trans h g)
  · exact Or.inl (g ▸ h)
  · exact Or.inl (h ▸ g)
  · exact Or.inr ⟨h.trans g, Nat.le_trans h₂ g₂⟩

theorem lex_le_of_lt {d₁ d₂ : α} {e₁ e₂ : ℕ}
    (h : d₁ < d₂ ∨ (d₁ = d₂ ∧ e₁ < e₂)) :
    d₁ < d₂ ∨ (d₁ = d₂ ∧ e₁ ≤ e₂) := by
  rcases h with h | ⟨h, h₂⟩
  · exact Or.inl h
  · exact Or.inr ⟨h, Nat.le_of_lt h₂⟩

theorem lex_le_of_not_lt {d₁ d₂ : α} {e₁ e₂ : ℕ}
    (h : ¬(d₁ < d₂ ∨ (d₁ = d₂ ∧ e₁ < e₂))) :
    d₂ < d₁ ∨ (d₂ = d₁ ∧ e₂ ≤ e₁) := by
  push_neg at h
  rcases lt_trichotomy d₁ d₂ with hd | hd | hd
  · exact absurd hd (not_lt.mpr h.1)
  · exact Or.inr ⟨hd.symm, h.2 hd⟩
  · exact Or.inl hd

theorem best_update_ne_none (b : Option (ℕ × α)) (e : ℕ) (d : α) :
    best_update b e d ≠ none := by
  cases b with
  | none => simp [best_update]
  | some v =>
      obtain ⟨e₀, d₀⟩ := v
      rw [best_update]
      split <;> simp

theorem fold_best_none_iff (dist_sq : ℕ → α) (es : List ℕ)
    (b : Option (ℕ × α)) :
    (fold_best dist_sq b es = none ↔ b = none ∧ es = []) := by
  induction es generalizing b with
  | nil => simp [fold_best]
  | cons a t ih =>
      rw [fold_best_cons, ih]
      simp only [List.cons_ne_nil, and_false, iff_false, not_and]
      intro hb
      exact absurd hb (best_update_ne_none b a (dist_sq a))

/-- The fold picks an element of its input (or keeps the seed) and the result
is lexicographically minimal — smaller distance first, lower entity id on
ties. -/
theorem fold_best_min (dist_sq : ℕ → α) :
    ∀ (es : List ℕ) (b : Option (ℕ × α)) (e : ℕ) (d : α),
      fold_best dist_sq b es = some (e, d) →
      ((b = some (e, d) ∨ (e ∈ es ∧ d = dist_sq e)) ∧
        (∀ e₀ d₀, b = some (e₀, d₀) → (d < d₀ ∨ (d = d₀ ∧ e ≤ e₀))) ∧
        (∀ e' ∈ es, d < dist_sq e' ∨ (d = dist_sq e' ∧ e ≤ e'))) := by
  intro es
  induction es with
  | nil =>
      intro b e d h
      rw [fold_best] at h
      simp only [List.foldl_nil] at h
      refine ⟨Or.inl h, ?_, by simp⟩
      intro e₀ d₀ hb
      rw [h] at hb
      injection hb with hb
      injection hb with hb₁ hb₂
      exact Or.inr ⟨hb₂, hb₁.le⟩
  | cons a t ih =>
      intro b e d h
      rw [fold_best_cons] at h
      obtain ⟨hsrc, hvsb, hvses⟩ := ih (best_update b a (dist_sq a)) e d h
      have hvsnew : d < dist_sq a ∨ (d = dist_sq a ∧ e ≤ a) := by
        cases b with
        | none => exact hvsb a (dist_sq a) rfl
        | some v =>
            obtain ⟨e₁, d₁⟩ := v
            by_cases hc : dist_sq a < d₁ ∨ (dist_sq a = d₁ ∧ a < e₁)
            · exact hvsb a (dist_sq a) (by rw [best_update, if_pos hc])
            · have h₁ := hvsb e₁ d₁ (by rw [best_update, if_neg hc])
              exact lex_le_trans h₁ (lex_le_of_not_lt hc)
      refine ⟨?_, ?_, ?_⟩
      · rcases hsrc with hsrc | hsrc
        · cases b with
          | none =>
              rw [best_update] at hsrc
              injection hsrc with hsrc
              injection hsrc with hsrc₁ hsrc₂
              subst hsrc₁
              exact Or.inr ⟨List.mem_cons_self a t, hsrc₂.symm⟩
          | some v =>
              obtain ⟨e₁, d₁⟩ := v
              rw [best_update] at hsrc
              by_cases hc : dist_sq a < d₁ ∨ (dist_sq a = d₁ ∧ a < e₁)
              · rw [if_pos hc] at hsrc
                injection hsrc with hsrc
                injection hsrc with hsrc₁ hsrc₂
                subst hsrc₁
                exact Or.inr ⟨List.mem_cons_self a t, hsrc₂.symm⟩
              · rw [if_neg hc] at hsrc
                exact Or.inl hsrc
        · exact Or.inr ⟨List.mem_cons_of_mem _ hsrc.1, hsrc.2⟩
      · intro e₀ d₀ hb
        subst hb
        by_cases hc : dist_sq a < d₀ ∨ (dist_sq a = d₀ ∧ a < e₀)
        · have h₁ := hvsb a (dist_sq a) (by rw [best_update, if_pos hc])
          exact lex_le_trans h₁ (lex_le_of_lt hc)
        · exact hvsb e₀ d₀ (by rw [best_update, if_neg hc])
      · intro e' he'
        rcases List.mem_cons.mp he' with rfl | he'
        · exact hvsnew
        · exact hvses e' he'

/-- C5: on a non-empty well-formed tree with proper boxes and an admissible
distance oracle, `compute_closest_entity` returns an entity of the tree
together with its exact (squared) distance, minimal over all entities, with
the lowest entity id on ties; on the empty tree it returns the defined "no
entity" result (§4.5). -/
theorem compute_closest_entity_spec (dist_sq : ℕ → α) (p : List α)
    (n : Node α) (hwf : n.wf = true) (hprop : n.proper = true)
    (hadm : ∀ ebx ∈ n.leaves,
      lower_bound_distance_sq ebx.2 p ≤ dist_sq ebx.1) :
    compute_closest_entity dist_sq (none : Tree α) p = none ∧
    ∃ e, compute_closest_entity dist_sq (some n) p = some (e, dist_sq e) ∧
      e ∈ n.entities ∧
      ∀ e' ∈ n.entities,
        dist_sq e < dist_sq e' ∨ (dist_sq e = dist_sq e' ∧ e ≤ e') := by
  refine ⟨rfl, ?_⟩
  rw [compute_closest_entity]
  rw [search_eq dist_sq p [(lower_bound_distance_sq n.box p, n)] none
    (by simp [pq_sorted])
    (by
      rintro x hx
      rw [List.mem_singleton] at hx
      subst hx
      exact ⟨hwf, hprop, rfl, hadm⟩)]
  have hqe : queue_entities [(lower_bound_distance_sq n.box p, n)]
      = n.entities := by
    show n.entities ++ queue_entities [] = n.entities
    simp [queue_entities]
  rw [hqe]
  have hne : n.entities ≠ [] := by
    rw [Node.entities]
    simp only [ne_eq, List.map_eq_nil_iff]
    exact Node.leaves_ne_nil n
  cases hfb : fold_best dist_sq none n.entities with
  | none => exact absurd ((fold_best_none_iff dist_sq n.entities none).mp hfb).2 hne
  | some v =>
      obtain ⟨e, d⟩ := v
      obtain ⟨hsrc, _, hmin⟩ := fold_best_min dist_sq n.entities none e d hfb
      rcases hsrc with hsrc | hsrc
      · exact absurd hsrc (by simp)
      · exact ⟨e, by rw [hsrc.2], hsrc.1,
          fun e' he' => hsrc.2 ▸ hmin e' he'⟩

/-- C7: evaluating a `Function` at a coordinate whose dimension differs from
the mesh's geometric dimension raises `ValueError` rather than being
recovered internally (`function.py` lines 64–70, `test_call`). -/
theorem function_call_wrong_dim (f : PyFunction α) (x : List α)
    (h : x.length ≠ f.gdim) :
    f.call x = Except.error "Wrong geometric dimension for coordinate(s)." := by
  rw [PyFunction.call, if_pos h]

/-- C7 witness: a 4-component point against a 3-dimensional mesh. -/
theorem function_call_wrong_dim_witness :
    ([(0 : ℤ), 0, 0, 0].length ≠ 3) ∧
      PyFunction.call ⟨3, fun v => v⟩ [(0 : ℤ), 0, 0, 0] =
        Except.error "Wrong geometric dimension for coordinate(s)." :=
  ⟨by decide, function_call_wrong_dim ⟨3, fun v => v⟩ [0, 0, 0, 0] (by decide)⟩

/-- C9: writing `c.value = v` stores `v` in the backing array and reading
`c.value` returns it; assigning any other attribute leaves the backing array
untouched; reading any other attribute that is not defined raises
`AttributeError` (`fem/constant.py` `__setattr__`/`__getattr__`). -/
theorem constant_value_attr (c : PyConstant α) (v w : α) (name : String) :
    (c.attrs.lookup "value" = none → c.arr ≠ [] →
      (c.setattr "value" v).getattr "value" = Except.ok v) ∧
    (name ≠ "value" → (c.setattr name w).arr = c.arr) ∧
    (name ≠ "value" → c.attrs.lookup name = none →
      c.getattr name = Except.error "No such attribute") := by
  refine ⟨?_, ?_, ?_⟩
  · intro h₁ h₂
    rw [PyConstant.setattr, if_pos rfl, PyConstant.getattr]
    cases harr : c.arr with
    | nil => exact absurd harr h₂
    | cons a t => simp [h₁, harr]
  · intro h
    rw [PyConstant.setattr, if_neg h]
  · intro h₁ h₂
    rw [PyConstant.getattr, h₂, if_neg h₁]

/-- C10: `f.copy()` shares the function-space handle, allocates a distinct
vector handle with equal data, and afterwards writing through either vector
handle leaves the other's data unchanged (`function.py` `Function.copy`). -/
theorem function_copy_spec (st : VecStore α) (f : PyFunctionObj)
    (hf : f.vec < st.vecs.length) :
    ((f.copy st).2.space = f.space) ∧
    ((f.copy st).2.vec ≠ f.vec) ∧
    ((f.copy st).1.read (f.copy st).2.vec = st.read f.vec) ∧
    (∀ xs, (((f.copy st).1.write (f.copy st).2.vec xs).read f.vec
      = st.read f.vec)) ∧
    (∀ xs, (((f.copy st).1.write f.vec xs).read (f.copy st).2.vec
      = st.read f.vec)) := by
  refine ⟨rfl, by simp [PyFunctionObj.copy]; omega, ?_, ?_, ?_⟩
  · show (st.vecs ++ [st.read f.vec]).getD st.vecs.length [] = st.read f.vec
    simp [List.getD]
  · intro xs
    show ((st.vecs ++ [st.read f.vec]).set st.vecs.length xs).getD f.vec []
      = st.read f.vec
    simp [VecStore.read, List.getD,
      List.getElem?_set_ne (by omega : st.vecs.length ≠ f.vec),
      List.getElem?_append, hf]
  · intro xs
    show ((st.vecs ++ [st.read f.vec]).set f.vec xs).getD st.vecs.length []
      = st.read f.vec
    simp [VecStore.read, List.getD,
      List.getElem?_set_ne (by omega : f.vec ≠ st.vecs.length)]

/-- C10 witness: a concrete two-vector store. -/
theorem function_copy_spec_witness :
    ((0 : ℕ) < (VecStore.mk [[(1 : ℤ), 2], [3]]).vecs.length) ∧
    ((PyFunctionObj.copy (VecStore.mk [[(1 : ℤ), 2], [3]]) ⟨5, 0⟩).2.space = 5 ∧
      (PyFunctionObj.copy (VecStore.mk [[(1 : ℤ), 2], [3]]) ⟨5, 0⟩).2.vec ≠ 0 ∧
      (PyFunctionObj.copy (VecStore.mk [[(1 : ℤ), 2], [3]]) ⟨5, 0⟩).1.read
          (PyFunctionObj.copy (VecStore.mk [[(1 : ℤ), 2], [3]]) ⟨5, 0⟩).2.vec
        = (VecStore.mk [[(1 : ℤ), 2], [3]]).read 0 ∧
      (∀ xs, ((PyFunctionObj.copy (VecStore.mk [[(1 : ℤ), 2], [3]])
            ⟨5, 0⟩).1.write
          (PyFunctionObj.copy (VecStore.mk [[(1 : ℤ), 2], [3]]) ⟨5, 0⟩).2.vec
            xs).read 0
        = (VecStore.mk [[(1 : ℤ), 2], [3]]).read 0) ∧
      (∀ xs, ((PyFunctionObj.copy (VecStore.mk [[(1 : ℤ), 2], [3]])
            ⟨5, 0⟩).1.write 0 xs).read
          (PyFunctionObj.copy (VecStore.mk [[(1 : ℤ), 2], [3]]) ⟨5, 0⟩).2.vec
        = (VecStore.mk [[(1 : ℤ), 2], [3]]).read 0)) :=
  ⟨by decide, function_copy_spec (VecStore.mk [[(1 : ℤ), 2], [3]]) ⟨5, 0⟩
    (by decide)⟩

/-- C8: queries are pure reads — running any query returns the tree handle
unchanged, and running the same query again returns the identical answer
(§5, §8 idempotence). -/
theorem run_query_pure (t : Tree α) (q : Query α) :
    ((run_query t q).1 = t) ∧
    ((run_query (run_query t q).1 q).2 = (run_query t q).2) := by
  cases q <;> exact ⟨rfl, rfl⟩

/-- C4 witness: two overlapping single-cell trees over ℤ. -/
theorem compute_collisions_bb_symm_witness :
    (Tree.wf (some (Node.leaf 0 [((0 : ℤ), 1)])) = true) ∧
    (Tree.wf (some (Node.leaf 1 [((0 : ℤ), 1)])) = true) ∧
    (((0, 1) : ℕ × ℕ) ∈
        compute_collisions_bb (some (Node.leaf 0 [((0 : ℤ), 1)]))
          (some (Node.leaf 1 [((0 : ℤ), 1)])) ↔
      ((1, 0) : ℕ × ℕ) ∈
        compute_collisions_bb (some (Node.leaf 1 [((0 : ℤ), 1)]))
          (some (Node.leaf 0 [((0 : ℤ), 1)]))) :=
  ⟨rfl, rfl,
    compute_collisions_bb_symm (some (Node.leaf 0 [((0 : ℤ), 1)]))
      (some (Node.leaf 1 [((0 : ℤ), 1)])) rfl rfl 0 1⟩

/-- C5 witness: a two-cell tree over ℤ with an admissible oracle. -/
theorem compute_closest_entity_spec_witness :
    ((Node.branch [((0 : ℤ), 2)] (Node.leaf 0 [(0, 1)])
        (Node.leaf 1 [(1, 2)])).wf = true) ∧
    ((Node.branch [((0 : ℤ), 2)] (Node.leaf 0 [(0, 1)])
        (Node.leaf 1 [(1, 2)])).proper = true) ∧
    (∀ ebx ∈ (Node.branch [((0 : ℤ), 2)] (Node.leaf 0 [(0, 1)])
        (Node.leaf 1 [(1, 2)])).leaves,
      lower_bound_distance_sq ebx.2 [(4 : ℤ)] ≤
        (fun e => if e = 0 then (9 : ℤ) else 4) ebx.1) ∧
    (compute_closest_entity (fun e => if e = 0 then (9 : ℤ) else 4)
        (none : Tree ℤ) [(4 : ℤ)] = none ∧
      ∃ e, compute_closest_entity (fun e => if e = 0 then (9 : ℤ) else 4)
          (some (Node.branch [((0 : ℤ), 2)] (Node.leaf 0 [(0, 1)])
            (Node.leaf 1 [(1, 2)]))) [(4 : ℤ)]
          = some (e, (fun e => if e = 0 then (9 : ℤ) else 4) e) ∧
        e ∈ (Node.branch [((0 : ℤ), 2)] (Node.leaf 0 [(0, 1)])
          (Node.leaf 1 [(1, 2)])).entities ∧
        ∀ e' ∈ (Node.branch [((0 : ℤ), 2)] (Node.leaf 0 [(0, 1)])
          (Node.leaf 1 [(1, 2)])).entities,
          (fun e => if e = 0 then (9 : ℤ) else 4) e <
              (fun e => if e = 0 then (9 : ℤ) else 4) e' ∨
            ((fun e => if e = 0 then (9 : ℤ) else 4) e =
                (fun e => if e = 0 then (9 : ℤ) else 4) e' ∧ e ≤ e')) :=
  ⟨by decide, by decide, by decide,
    compute_closest_entity_spec (fun e => if e = 0 then (9 : ℤ) else 4)
      [(4 : ℤ)]
      (Node.branch [((0 : ℤ), 2)] (Node.leaf 0 [(0, 1)]) (Node.leaf 1 [(1, 2)]))
      (by decide) (by decide) (by decide)⟩

end Dolfin
